import Mathlib

/-!
Verification of the EPSTEIN-language transpiler (TypeScript sources:
`src/parser.ts`, `src/utils.ts`, `src/executor.ts`).

Lines, cleaned text and emitted JavaScript are modelled as `List Char`,
mirroring the JavaScript string operations (`split`, `trim`, `indexOf`,
`startsWith`, `includes`, `repeat`, `join`) and the regular-expression
based replacements (`\b`-anchored whole-word global replaces, and the
header-matching regexes of `convertFunction`, `convertConditional` and
`extractLoop`) character by character.
-/

namespace Epstein

/-- JavaScript `\s` / `trim` whitespace test (ASCII fragment used by the code). -/
def isWs (c : Char) : Bool := c.isWhitespace

/-- JavaScript `\w` / `\b` word-character class: `[A-Za-z0-9_]`. -/
def isWordChar (c : Char) : Bool := c.isAlphanum || c == '_'

/-- `utils.getIndent`: length of the leading whitespace run (`/^(\s*)/`). -/
def getIndent (line : List Char) : Nat := (line.takeWhile isWs).length

/-- Index of the first occurrence of `//` (JavaScript `indexOf('//')`). -/
def commentIndex : List Char → Option Nat
  | '/' :: '/' :: _ => some 0
  | _ :: cs => (commentIndex cs).map (· + 1)
  | [] => none

/-- `utils.removeComment`: truncate the line at the first `//`. -/
def removeComment (line : List Char) : List Char :=
  match commentIndex line with
  | some i => line.take i
  | none => line

/-- Strip trailing whitespace. -/
def trimRight (l : List Char) : List Char := (l.reverse.dropWhile isWs).reverse

/-- JavaScript `String.prototype.trim`. -/
def jsTrim (l : List Char) : List Char := trimRight (l.dropWhile isWs)

/-- `utils.isEmpty`: blank line or a line whose trimmed text starts with `//`. -/
def isEmpty (line : List Char) : Bool :=
  (jsTrim line).isEmpty || "//".data.isPrefixOf (jsTrim line)

/-- `utils.isFunction`: trimmed line starts with `plot `. -/
def isFunction (line : List Char) : Bool :=
  "plot ".data.isPrefixOf (jsTrim line)

/-- `utils.isConditional`: trimmed line starts with `if ` or equals `else:`. -/
def isConditional (line : List Char) : Bool :=
  "if ".data.isPrefixOf (jsTrim line) || jsTrim line == "else:".data

/-- JavaScript `code.split('\n')`. -/
def splitNl : List Char → List (List Char)
  | [] => [[]]
  | c :: cs =>
    if c = '\n' then [] :: splitNl cs
    else
      match splitNl cs with
      | [] => [[c]]
      | t :: ts => (c :: t) :: ts

/-- JavaScript `lines.join('\n')`. -/
def joinNl : List (List Char) → List Char
  | [] => []
  | [l] => l
  | l :: ls => l ++ '\n' :: joinNl ls

/-- What may follow a keyword in one of the parser's replacement regexes:
a closing word boundary `\b`, a fixed literal character, or `\s+`. -/
inductive TailPat
  | wordEnd
  | lit (c : Char)
  | ws
deriving DecidableEq

/-- Length of the leading whitespace run. -/
def wsRunLen (cs : List Char) : Nat := (cs.takeWhile isWs).length

/-- Length of the text matched at the head of `cs` by `kw` followed by the
tail pattern `tp` (the leading `\b` is checked by the caller). -/
def matchLen (kw : List Char) (tp : TailPat) (cs : List Char) : Option Nat :=
  if kw.isPrefixOf cs then
    match tp with
    | .wordEnd =>
      if isWordChar ((cs.drop kw.length).headD ' ') then none else some kw.length
    | .lit c =>
      match cs.drop kw.length with
      | d :: _ => if d = c then some (kw.length + 1) else none
      | [] => none
    | .ws =>
      if 1 ≤ wsRunLen (cs.drop kw.length) then
        some (kw.length + wsRunLen (cs.drop kw.length))
      else none
  else none

/-- Left-to-right global replacement of `\b<kw><tp>` by `rep`, as performed by
JavaScript `String.prototype.replace` with a `/g` regex: matches are found on
the original text (the word-boundary state after a match is taken from the
matched original characters), and matched segments are replaced by `rep`.
`fuel` bounds the recursion; it is instantiated with the text length. -/
def replaceScanFuel (kw : List Char) (tp : TailPat) (rep : List Char) :
    Nat → Bool → List Char → List Char
  | 0, _, cs => cs
  | _ + 1, _, [] => []
  | fuel + 1, prevW, c :: cs =>
    if prevW then c :: replaceScanFuel kw tp rep fuel (isWordChar c) cs
    else
      match matchLen kw tp (c :: cs) with
      | some n =>
        rep ++ replaceScanFuel kw tp rep fuel
          (isWordChar (((c :: cs).take n).getLastD c)) (cs.drop (n - 1))
      | none => c :: replaceScanFuel kw tp rep fuel (isWordChar c) cs

/-- One `converted.replace(/\b<kw><tp>/g, rep)` call. -/
def replTok (kw : List Char) (tp : TailPat) (rep cs : List Char) : List Char :=
  replaceScanFuel kw tp rep cs.length false cs

/-- A sequence of `replace` calls, applied in order. -/
def applyRules (rules : List (List Char × TailPat × List Char)) (cs : List Char) : List Char :=
  rules.foldl (fun acc r => replTok r.1 r.2.1 r.2.2 acc) cs

/-- The replacement sequence of `EpsteinParser.convertVariable`, in source order. -/
def varRules : List (List Char × TailPat × List Char) :=
  [ ("theory".data, .lit '(', "Number(".data),
    ("risk".data, .lit '(', "parseFloat(".data),
    ("ghost".data, .lit '(', "String(".data),
    ("money".data, .lit '(', "Boolean(".data),
    ("island".data, .lit '[', "[".data),
    ("girl".data, .lit '\x7b', "\x7b".data),
    ("mission".data, .lit '(', "[".data),
    ("weapon".data, .lit '[', "[".data),
    ("truestory".data, .wordEnd, "true".data),
    ("falsestory".data, .wordEnd, "false".data),
    ("truth".data, .wordEnd, "true".data),
    ("lie".data, .wordEnd, "false".data),
    ("universe".data, .wordEnd, "null".data),
    ("alibi".data, .wordEnd, "null".data) ]

/-- The replacement sequence of `EpsteinParser.convertExpression`, in source order. -/
def exprRules : List (List Char × TailPat × List Char) :=
  [ ("files".data, .lit '(', "console.log(".data),
    ("suicide".data, .ws, "return ".data),
    ("escape".data, .wordEnd, "break".data),
    ("theory".data, .lit '(', "Number(".data),
    ("risk".data, .lit '(', "parseFloat(".data),
    ("ghost".data, .lit '(', "String(".data),
    ("money".data, .lit '(', "Boolean(".data),
    ("truestory".data, .wordEnd, "true".data),
    ("falsestory".data, .wordEnd, "false".data) ]

/-- `EpsteinParser.convertVariable`. -/
def convertVariable (line ind : List Char) : List Char :=
  ind ++ "const ".data ++ applyRules varRules line ++ ";".data

/-- `EpsteinParser.convertExpression`. -/
def convertExpression (line ind : List Char) : List Char :=
  if jsTrim line = "\x7d".data then ind ++ "\x7d".data
  else ind ++ applyRules exprRules line ++ ";".data

/-- Run of word characters at the head of the text (`\w+`, greedy). -/
def wordRun (cs : List Char) : List Char := cs.takeWhile isWordChar

/-- The lazy group `(.*?)\):` — the shortest newline-free prefix followed by `):`
(the dot of a JavaScript regex does not match a newline). -/
def lazyParams : List Char → Option (List Char)
  | [] => none
  | [_] => none
  | c :: d :: rest =>
    if c = ')' ∧ d = ':' then some []
    else if c = '\n' then none
    else (lazyParams (d :: rest)).map (c :: ·)

/-- Match `(?:plot|plan)\s+(\w+)\((.*?)\):` at the start of `cs`,
returning the captured name and parameter list. -/
def funcAt (cs : List Char) : Option (List Char × List Char) :=
  if "plot".data.isPrefixOf cs || "plan".data.isPrefixOf cs then
    let rest := (cs.drop 4)
    if 1 ≤ wsRunLen rest then
      let rest2 := rest.drop (wsRunLen rest)
      let name := wordRun rest2
      if name.isEmpty then none
      else
        match rest2.drop name.length with
        | '(' :: rest3 => (lazyParams rest3).map (fun ps => (name, ps))
        | _ => none
    else none
  else none

/-- First match of the function-header regex anywhere in the line. -/
def funcFind : List Char → Option (List Char × List Char)
  | [] => none
  | c :: cs =>
    match funcAt (c :: cs) with
    | some r => some r
    | none => funcFind cs

/-- `EpsteinParser.convertFunction`. -/
def convertFunction (line ind : List Char) : List Char :=
  match funcFind line with
  | some (name, params) =>
    ind ++ "function ".data ++ name ++ "(".data ++ params ++ ") \x7b".data
  | none => ind ++ "// ERROR: Invalid function syntax".data

/-- Match `loop\s+(\w+):` at the start of `cs`, returning the collection name. -/
def loopAt (cs : List Char) : Option (List Char) :=
  if "loop".data.isPrefixOf cs then
    let rest := cs.drop 4
    if 1 ≤ wsRunLen rest then
      let rest2 := rest.drop (wsRunLen rest)
      let name := wordRun rest2
      if name.isEmpty then none
      else
        match rest2.drop name.length with
        | ':' :: _ => some name
        | _ => none
    else none
  else none

/-- First match of the loop-header regex anywhere in the line. -/
def loopFind : List Char → Option (List Char)
  | [] => none
  | c :: cs =>
    match loopAt (c :: cs) with
    | some r => some r
    | none => loopFind cs

/-- `utils.extractLoop`: fixed iteration variable `item`, captured collection. -/
def extractLoop (line : List Char) : Option (List Char × List Char) :=
  (loopFind line).map (fun coll => ("item".data, coll))

/-- `EpsteinParser.convertLoop`. -/
def convertLoop (line ind : List Char) : List Char :=
  match extractLoop line with
  | some (v, coll) =>
    ind ++ "for (const ".data ++ v ++ " of ".data ++ coll ++ ") \x7b".data
  | none => ind ++ "// ERROR: Invalid loop syntax".data

/-- The greedy group `(.+):` of the conditional regex applied to `content`:
capture the longest newline-free prefix of length at least one that is
followed by `:`. -/
def tryCapture (content : List Char) : Option (List Char) :=
  let pre := content.takeWhile (fun c => !(c == '\n'))
  let ks := (List.range pre.length).filter (fun k => decide (1 ≤ k) && (pre.get? k == some ':'))
  match ks.getLast? with
  | some k => some (pre.take k)
  | none => none

/-- Backtracking over the greedy `\s+` of `if\s+(.+):` — try the longest
whitespace run first, then shorter ones. -/
def condWsBacktrack (rest : List Char) : Nat → Option (List Char)
  | 0 => none
  | j + 1 =>
    match tryCapture (rest.drop (j + 1)) with
    | some cap => some cap
    | none => condWsBacktrack rest j

/-- Match `if\s+(.+):` at the start of `cs`, returning the captured condition. -/
def condAt (cs : List Char) : Option (List Char) :=
  match cs with
  | 'i' :: 'f' :: rest => condWsBacktrack rest (wsRunLen rest)
  | _ => none

/-- First match of the conditional regex anywhere in the line. -/
def condFind : List Char → Option (List Char)
  | [] => none
  | c :: cs =>
    match condAt (c :: cs) with
    | some r => some r
    | none => condFind cs

/-- `EpsteinParser.convertConditional`. -/
def convertConditional (line ind : List Char) : List Char :=
  if line = "else:".data then ind ++ "\x7d else \x7b".data
  else
    match condFind line with
    | some cond => ind ++ "if (".data ++ cond ++ ") \x7b".data
    | none => ind ++ "// ERROR: Invalid conditional syntax".data

/-- The category tag of `ParsedLine` (`'variable' | 'function' | 'loop' |
'conditional' | 'expression' | 'empty'`). -/
inductive LineType
  | variable'
  | function'
  | loop
  | conditional
  | expression
  | empty
deriving DecidableEq

/-- The `ParsedLine` interface of `parser.ts`. -/
structure ParsedLine where
  original : List Char
  cleaned : List Char
  indent : Nat
  type : LineType
deriving DecidableEq

/-- `EpsteinParser.parseLine`: classify a single line. -/
def parseLine (line : List Char) : ParsedLine :=
  let indent := getIndent line
  let cleaned := jsTrim (removeComment line)
  if isEmpty line then ⟨line, [], indent, .empty⟩
  else if isFunction cleaned then ⟨line, cleaned, indent, .function'⟩
  else if isConditional cleaned then ⟨line, cleaned, indent, .conditional⟩
  else if cleaned.contains '=' then ⟨line, cleaned, indent, .variable'⟩
  else ⟨line, cleaned, indent, .expression⟩

/-- `EpsteinParser.parse`: classify every line. -/
def parse (lines : List (List Char)) : List ParsedLine := lines.map parseLine

/-- One iteration of the `toJavaScript` loop: emit the JavaScript line for a
classified line (empty lines emit a blank line; the indentation prefix is
`'  '.repeat(indent / 2)`). -/
def emitLine (p : ParsedLine) : List Char :=
  if p.type = .empty then []
  else
    let indentation := (List.replicate (p.indent / 2) "  ".data).flatten
    match p.type with
    | .function' => convertFunction p.cleaned indentation
    | .loop => convertLoop p.cleaned indentation
    | .conditional => convertConditional p.cleaned indentation
    | .variable' => convertVariable p.cleaned indentation
    | .expression => convertExpression p.cleaned indentation
    | .empty => []

/-- The `jsLines` array built by `EpsteinParser.toJavaScript`. -/
def toJavaScriptLines (ps : List ParsedLine) : List (List Char) := ps.map emitLine

/-- `EpsteinParser.toJavaScript`: emitted lines joined with newlines. -/
def toJavaScript (ps : List ParsedLine) : List Char := joinNl (toJavaScriptLines ps)

/-- The classify-then-translate pipeline on raw text: split into physical
lines, classify each, translate the sequence. -/
def epsteinRun (code : List Char) : List Char := toJavaScript (parse (splitNl code))

/-- String-level wrapper of the pipeline. -/
def epsteinPipeline (code : String) : String := String.mk (epsteinRun code.data)

/-!  The Executor (`executor.ts`): global-scope construction and the
per-execution merge with a caller-supplied scope.  JavaScript objects with
string keys are modelled as association lists; property assignment updates
the first entry with the given key in place and otherwise appends, property
read returns the first entry, and object spread `{...a, ...b}` assigns every
entry of `b` onto a copy of `a` in order. -/

/-- Runtime values stored in the executor's scope: the `Runtime` conversion
functions, boolean and null constants, and the `console` object. -/
inductive JSVal
  | theoryFn | riskFn | ghostFn | moneyFn | islandFn
  | girlFn | missionFn | secretFn | weaponFn | filesFn
  | boolVal (b : Bool)
  | nullVal
  | consoleObj
deriving DecidableEq

/-- JavaScript property read: first entry with the given key. -/
def objGet {V : Type} : List (String × V) → String → Option V
  | [], _ => none
  | (k₁, v₁) :: rest, k => if k₁ = k then some v₁ else objGet rest k

/-- JavaScript property assignment: update in place or append. -/
def objInsert {V : Type} : List (String × V) → String → V → List (String × V)
  | [], k, v => [(k, v)]
  | (k₁, v₁) :: rest, k, v =>
    if k₁ = k then (k₁, v) :: rest else (k₁, v₁) :: objInsert rest k v

/-- JavaScript object spread `{...a, ...b}`. -/
def objSpread {V : Type} (a b : List (String × V)) : List (String × V) :=
  b.foldl (fun m p => objInsert m p.1 p.2) a

/-- `Executor.setupGlobalScope`: the fixed built-in binding set, assigned
key by key in source order. -/
def setupGlobalScope : List (String × JSVal) :=
  let s : List (String × JSVal) := []
  let s := objInsert s "theory" .theoryFn
  let s := objInsert s "risk" .riskFn
  let s := objInsert s "ghost" .ghostFn
  let s := objInsert s "money" .moneyFn
  let s := objInsert s "island" .islandFn
  let s := objInsert s "girl" .girlFn
  let s := objInsert s "mission" .missionFn
  let s := objInsert s "secret" .secretFn
  let s := objInsert s "weapon" .weaponFn
  let s := objInsert s "files" .filesFn
  let s := objInsert s "truestory" (.boolVal true)
  let s := objInsert s "falsestory" (.boolVal false)
  let s := objInsert s "truth" (.boolVal true)
  let s := objInsert s "lie" (.boolVal false)
  let s := objInsert s "universe" .nullVal
  let s := objInsert s "alibi" .nullVal
  let s := objInsert s "console" .consoleObj
  s

/-- The merged scope `{...this.globalScope, ...customScope}` made visible to
the code run by `Executor.executeWithScope`. -/
def executeScope (custom : List (String × JSVal)) : List (String × JSVal) :=
  objSpread setupGlobalScope custom

/-- The keyword `kw` occurs in the text `cs` at position `i`. -/
def occursAt (kw cs : List Char) (i : Nat) : Prop := kw.isPrefixOf (cs.drop i) = true

/-- An occurrence of `kw` at position `i` of `cs` sits strictly inside a
longer identifier: a word character is adjacent on the left or on the right. -/
def insideLongerWord (kw cs : List Char) (i : Nat) : Prop :=
  (0 < i ∧ isWordChar (cs.getD (i - 1) ' ') = true) ∨
    isWordChar (cs.getD (i + kw.length) ' ') = true

instance (kw cs : List Char) (i : Nat) : Decidable (occursAt kw cs i) :=
  inferInstanceAs (Decidable (_ = true))

instance (kw cs : List Char) (i : Nat) : Decidable (insideLongerWord kw cs i) :=
  inferInstanceAs (Decidable (_ ∨ _))

/-! ### Helper lemmas -/

lemma dropWhile_idem (p : Char → Bool) (l : List Char) :
    (l.dropWhile p).dropWhile p = l.dropWhile p := by
  induction l with
  | nil => rfl
  | cons c cs ih =>
    by_cases h : p c
    · simp [List.dropWhile_cons, h, ih]
    · simp [List.dropWhile_cons, h]

lemma trimRight_idem (l : List Char) : trimRight (trimRight l) = trimRight l := by
  simp [trimRight, List.reverse_reverse, dropWhile_idem]

lemma dropWhile_ws_trimRight (y : List Char) (hy : y.dropWhile isWs = y) :
    (trimRight y).dropWhile isWs = trimRight y := by
  have h1 : (trimRight y).reverse <:+ y.reverse := by
    simpa [trimRight, List.reverse_reverse] using List.dropWhile_suffix (l := y.reverse) isWs
  have hpre : trimRight y <+: y := List.reverse_suffix.mp h1
  match h2 : trimRight y with
  | [] => simp
  | c :: t =>
    rw [h2] at hpre
    obtain ⟨s, hs⟩ := hpre
    have hy' : y = c :: (t ++ s) := by rw [← hs]; simp
    have hc : ¬ isWs c = true := by
      intro hcw
      rw [hy', List.dropWhile_cons, if_pos hcw] at hy
      have hlen := (List.dropWhile_sublist (l := t ++ s) (p := isWs)).length_le
      rw [hy] at hlen
      simp only [List.length_cons] at hlen
      omega
    simp [List.dropWhile_cons, hc]

lemma jsTrim_idem (l : List Char) : jsTrim (jsTrim l) = jsTrim l := by
  unfold jsTrim
  rw [dropWhile_ws_trimRight _ (dropWhile_idem _ _), trimRight_idem]

lemma parseLine_cleaned_of_not_empty (line : List Char) (he : ¬ isEmpty line = true) :
    (parseLine line).cleaned = jsTrim (removeComment line) := by
  simp only [parseLine]
  rw [if_neg he]
  repeat' split
  all_goals rfl

/-! ### Claims -/

/-- C1: the spec's loop scenario. The classifier never assigns the loop
category, so the pipeline leaves `loop crew:` as an expression and emits
`loop crew:;`; the translator's own loop rewrite, were it reached, would
produce exactly the output the spec states. -/
theorem spec_c1_code_eval :
    epsteinPipeline "loop crew:" = "loop crew:;" ∧
    convertLoop "loop crew:".data [] = "for (const item of crew) \x7b".data := by
  constructor <;> decide

/-- C2 counterexample: on the two-line input `if truth:` / indented
`files "Approved"`, the pipeline does not produce the output the claim
states (`if (true) {` and two-space-indented `console.log("Approved");`). -/
theorem spec_c2_counterexample :
    epsteinPipeline "if truth:\n    files \"Approved\"" ≠
      "if (true) \x7b\n  console.log(\"Approved\");" := by
  decide

/-- C2 amended: the pipeline emits `if (truth) {` (the conditional rewrite
performs no token substitution) and `    files "Approved";` (the print
rewrite requires `files(`, and indent 4 yields two two-space units). -/
theorem spec_c2_amended :
    epsteinPipeline "if truth:\n    files \"Approved\"" =
      "if (truth) \x7b\n    files \"Approved\";" := by
  decide

/-- C3 counterexample: the boolean synonym `truth` is rewritten on a
variable-binding line but not on a plain-expression line, so the claimed
substitutions are not applied to both alike. -/
theorem spec_c3_counterexample :
    convertExpression "truth".data [] ≠ "true;".data ∧
    convertExpression "truth".data [] = "truth;".data ∧
    convertVariable "x = truth".data [] = "const x = true;".data := by
  decide

/-- C3 amended: the type-constructor substitutions and the boolean synonyms
`truestory`/`falsestory` are applied to variable-binding and plain-expression
lines alike, but `truth`, `lie`, `universe` and `alibi` are substituted only
on variable-binding lines. -/
theorem spec_c3_amended :
    (convertVariable "a = theory(x)".data [] = "const a = Number(x);".data ∧
      convertExpression "theory(x)".data [] = "Number(x);".data) ∧
    (convertVariable "a = risk(x)".data [] = "const a = parseFloat(x);".data ∧
      convertExpression "risk(x)".data [] = "parseFloat(x);".data) ∧
    (convertVariable "a = ghost(x)".data [] = "const a = String(x);".data ∧
      convertExpression "ghost(x)".data [] = "String(x);".data) ∧
    (convertVariable "a = money(x)".data [] = "const a = Boolean(x);".data ∧
      convertExpression "money(x)".data [] = "Boolean(x);".data) ∧
    (convertVariable "a = truestory".data [] = "const a = true;".data ∧
      convertExpression "truestory".data [] = "true;".data) ∧
    (convertVariable "a = falsestory".data [] = "const a = false;".data ∧
      convertExpression "falsestory".data [] = "false;".data) ∧
    (convertVariable "a = truth".data [] = "const a = true;".data ∧
      convertExpression "truth".data [] = "truth;".data) ∧
    (convertVariable "a = lie".data [] = "const a = false;".data ∧
      convertExpression "lie".data [] = "lie;".data) ∧
    (convertVariable "a = universe".data [] = "const a = null;".data ∧
      convertExpression "universe".data [] = "universe;".data) ∧
    (convertVariable "a = alibi".data [] = "const a = null;".data ∧
      convertExpression "alibi".data [] = "alibi;".data) := by
  decide

/-- C6: a function-category line on which the function-header regex finds no
match translates to the inert `// ERROR: Invalid function syntax` comment at
the given indentation; the translation is a total function, so no exception
can arise. -/
theorem spec_c6 (line ind : List Char)
    (h1 : (parseLine line).type = LineType.function')
    (h2 : funcFind (parseLine line).cleaned = none) :
    convertFunction (parseLine line).cleaned ind =
      ind ++ "// ERROR: Invalid function syntax".data := by
  unfold convertFunction
  rw [h2]

/-- C6 witness: the header `plot broken(x)` (missing its trailing colon) is
classified as a function line and degrades to the inert comment. -/
theorem spec_c6_witness :
    convertFunction (parseLine "plot broken(x)".data).cleaned [] =
      "// ERROR: Invalid function syntax".data := by
  have h := spec_c6 "plot broken(x)".data [] (by decide) (by decide)
  simpa using h

/-- C7: a line consisting only of whitespace, or whose trimmed content
starts with `//`, is classified as empty, and translation emits a blank
line for it. -/
theorem spec_c7 (line : List Char)
    (h : (∀ c ∈ line, isWs c = true) ∨ "//".data.isPrefixOf (jsTrim line) = true) :
    (parseLine line).type = LineType.empty ∧ emitLine (parseLine line) = [] := by
  have he : isEmpty line = true := by
    rcases h with h | h
    · unfold isEmpty jsTrim trimRight
      have h1 : line.dropWhile isWs = [] :=
        List.dropWhile_eq_nil_iff.mpr (fun c hc => h c hc)
      rw [h1]
      simp
    · unfold isEmpty
      rw [h]
      simp
  refine ⟨by simp [parseLine, he], ?_⟩
  simp [parseLine, he, emitLine]

/-- C7 witness: the comment-only line `  // hidden` classifies as empty and
emits a blank line. -/
theorem spec_c7_witness :
    (parseLine "  // hidden".data).type = LineType.empty ∧
      emitLine (parseLine "  // hidden".data) = [] :=
  spec_c7 "  // hidden".data (Or.inr (by decide))

/-- C8: classification checks run in a fixed order with the function check
before the assignment check, so a line whose cleaned text starts with
`plot ` is classified as function even when it contains `=`. -/
theorem spec_c8 (line : List Char)
    (h1 : "plot ".data.isPrefixOf (parseLine line).cleaned = true)
    (h2 : (parseLine line).cleaned.contains '=' = true) :
    (parseLine line).type = LineType.function' := by
  by_cases he : isEmpty line = true
  · exfalso
    have hcl : (parseLine line).cleaned = [] := by simp [parseLine, he]
    rw [hcl] at h1
    exact absurd h1 (by decide)
  · have hcl := parseLine_cleaned_of_not_empty line he
    rw [hcl] at h1
    have hfun : isFunction (jsTrim (removeComment line)) = true := by
      unfold isFunction
      rw [jsTrim_idem]
      exact h1
    simp [parseLine, he, hfun]

/-- C8 witness: a function header with a default-parameter `=` classifies
as function, not variable-binding. -/
theorem spec_c8_witness :
    (parseLine "plot f(x = 1):".data).type = LineType.function' :=
  spec_c8 "plot f(x = 1):".data (by decide) (by decide)

/-- C10: the classifier only ever assigns the categories empty, function,
conditional, variable or expression — never loop, so the translator's loop
branch is unreachable through the classify-then-translate pipeline. -/
theorem spec_c10 (line : List Char) : (parseLine line).type ≠ LineType.loop := by
  simp only [parseLine]
  repeat' split
  all_goals simp

/-! ### Scope-merge lemmas (Executor) -/

lemma objGet_objInsert {V : Type} (m : List (String × V)) (k₁ k : String) (v : V) :
    objGet (objInsert m k₁ v) k = if k₁ = k then some v else objGet m k := by
  induction m with
  | nil =>
    by_cases h : k₁ = k <;> simp [objInsert, objGet, h]
  | cons p rest ih =>
    obtain ⟨k₂, v₂⟩ := p
    by_cases h : k₂ = k₁
    · subst h
      by_cases hk : k₂ = k <;> simp [objInsert, objGet, hk]
    · by_cases hk : k₂ = k
      · subst hk
        have hne : ¬ k₁ = k₂ := fun e => h e.symm
        simp [objInsert, objGet, h, hne]
      · simp [objInsert, objGet, h, hk, ih]

lemma objGet_not_mem {V : Type} (m : List (String × V)) (k : String)
    (h : k ∉ m.map Prod.fst) : objGet m k = none := by
  induction m with
  | nil => rfl
  | cons p rest ih =>
    obtain ⟨k₁, v₁⟩ := p
    simp only [List.map_cons, List.mem_cons] at h
    push_neg at h
    have hne : ¬ k₁ = k := fun e => h.1 e.symm
    simp [objGet, hne, ih h.2]

lemma objGet_objSpread {V : Type} (b : List (String × V)) :
    ∀ a : List (String × V), (b.map Prod.fst).Nodup → ∀ k,
      objGet (objSpread a b) k = (objGet b k).orElse (fun _ => objGet a k) := by
  induction b with
  | nil =>
    intro a _ k
    simp [objSpread, objGet, Option.orElse]
  | cons p bs ih =>
    intro a hnd k
    obtain ⟨k₁, v⟩ := p
    simp only [List.map_cons, List.nodup_cons] at hnd
    have hspread : objSpread a ((k₁, v) :: bs) = objSpread (objInsert a k₁ v) bs := rfl
    rw [hspread, ih (objInsert a k₁ v) hnd.2 k, objGet_objInsert]
    by_cases hk : k₁ = k
    · subst hk
      rw [objGet_not_mem bs k₁ hnd.1]
      simp [objGet, Option.orElse]
    · cases hbs : objGet bs k <;> simp [objGet, hk, hbs, Option.orElse]

/-- C9: the scope visible to code run through `executeWithScope` is the union
of the fixed built-in binding set and the caller-supplied overrides, and on
any name present in both the caller-supplied binding wins: a lookup consults
the overrides first and falls back to the built-ins. -/
theorem spec_c9 (custom : List (String × JSVal)) (k : String)
    (h : (custom.map Prod.fst).Nodup) :
    objGet (executeScope custom) k =
      (objGet custom k).orElse (fun _ => objGet setupGlobalScope k) :=
  objGet_objSpread custom setupGlobalScope h k

/-- C9 witness: overriding the built-in `truth` binding wins, and a name
absent from the overrides still resolves to its built-in value. -/
theorem spec_c9_witness :
    objGet (executeScope [("truth", JSVal.boolVal false)]) "truth" =
        some (JSVal.boolVal false) ∧
      objGet (executeScope [("truth", JSVal.boolVal false)]) "universe" =
        some JSVal.nullVal := by
  constructor
  · have h := spec_c9 [("truth", JSVal.boolVal false)] "truth" (by decide)
    rw [h]
    decide
  · have h := spec_c9 [("truth", JSVal.boolVal false)] "universe" (by decide)
    rw [h]
    decide

/-! ### Word-boundary lemmas -/

lemma getD_eq_headD_drop (cs : List Char) (m : Nat) (d : Char) :
    cs.getD m d = (cs.drop m).headD d := by
  rw [List.getD_eq_getElem?_getD]
  have h0 := List.getElem?_drop cs m 0
  cases hd : cs.drop m with
  | nil =>
    rw [hd] at h0
    simp only [List.getElem?_nil, Nat.add_zero] at h0
    simp [← h0]
  | cons x xs =>
    rw [hd] at h0
    simp only [List.getElem?_cons_zero, Nat.add_zero] at h0
    simp [← h0]

lemma matchLen_wordEnd_facts (kw cs : List Char) (n : Nat)
    (h : matchLen kw .wordEnd cs = some n) :
    kw.isPrefixOf cs = true ∧ isWordChar (cs.getD kw.length ' ') = false := by
  simp only [matchLen] at h
  by_cases hp : kw.isPrefixOf cs
  · rw [if_pos hp] at h
    refine ⟨hp, ?_⟩
    rw [getD_eq_headD_drop]
    by_cases hw : isWordChar ((cs.drop kw.length).headD ' ')
    · rw [if_pos hw] at h
      exact absurd h (by simp)
    · simpa using hw
  · rw [if_neg hp] at h
    exact absurd h (by simp)

lemma replaceScanFuel_id (kw : List Char) (tp : TailPat) (rep : List Char) :
    ∀ (fuel : Nat) (prevW : Bool) (cs : List Char),
      (∀ i, i < cs.length → matchLen kw tp (cs.drop i) ≠ none →
        (if i = 0 then prevW = true else isWordChar (cs.getD (i - 1) ' ') = true)) →
      replaceScanFuel kw tp rep fuel prevW cs = cs := by
  intro fuel
  induction fuel with
  | zero => intro prevW cs _; rfl
  | succ fuel ih =>
    intro prevW cs hhit
    cases cs with
    | nil => rfl
    | cons c cs' =>
      have htail : ∀ i, i < cs'.length → matchLen kw tp (cs'.drop i) ≠ none →
          (if i = 0 then isWordChar c = true
            else isWordChar (cs'.getD (i - 1) ' ') = true) := by
        intro i hi hm
        have h2 := hhit (i + 1) (by simpa using Nat.succ_lt_succ hi)
          (by rwa [List.drop_succ_cons])
        cases i with
        | zero => simpa using h2
        | succ j => simpa using h2
      by_cases hw : prevW = true
      · simp only [replaceScanFuel, if_pos hw]
        rw [ih (isWordChar c) cs' htail]
      · have hnone : matchLen kw tp (c :: cs') = none := by
          by_contra hcontra
          have h0 := hhit 0 (by simp) (by simpa using hcontra)
          simp at h0
          exact hw h0
        simp only [replaceScanFuel, if_neg hw, hnone]
        rw [ih (isWordChar c) cs' htail]

/-- C5: token substitution matches on word boundaries, so when every
occurrence of the keyword `truth` in a line sits strictly inside a longer
identifier, the `truth → true` rule (as used by `convertVariable` and the
token tables) leaves the line unchanged. -/
theorem spec_c5 (s : List Char)
    (h : ∀ i, i < s.length → occursAt "truth".data s i → insideLongerWord "truth".data s i) :
    replTok "truth".data .wordEnd "true".data s = s := by
  unfold replTok
  apply replaceScanFuel_id
  intro i hi hm
  cases hmm : matchLen "truth".data .wordEnd (s.drop i) with
  | none => exact absurd hmm hm
  | some n =>
    obtain ⟨hpre, hbound⟩ := matchLen_wordEnd_facts _ _ _ hmm
    have hin := h i hi hpre
    unfold insideLongerWord at hin
    rcases hin with ⟨hpos, hword⟩ | hword
    · cases i with
      | zero => exact absurd hpos (by simp)
      | succ j => simpa using hword
    · exfalso
      rw [getD_eq_headD_drop, List.drop_drop] at hbound
      rw [getD_eq_headD_drop] at hword
      rw [hword] at hbound
      exact absurd hbound (by simp)

/-- C5 witness: the variable-binding line `deal = truthful` contains `truth`
only inside the longer identifier `truthful`, and the `truth → true` rule
leaves it unchanged. -/
theorem spec_c5_witness :
    replTok "truth".data .wordEnd "true".data "deal = truthful".data =
      "deal = truthful".data := by
  apply spec_c5
  decide

/-! ### Splitting and joining lines -/

lemma splitNl_cons (c : Char) (cs : List Char) :
    splitNl (c :: cs) =
      if c = '\n' then [] :: splitNl cs
      else
        match splitNl cs with
        | [] => [[c]]
        | t :: ts => (c :: t) :: ts := rfl

lemma splitNl_ne_nil (cs : List Char) : splitNl cs ≠ [] := by
  induction cs with
  | nil => simp [splitNl]
  | cons c cs ih =>
    rw [splitNl_cons]
    split
    · simp
    · split <;> simp

lemma mem_splitNl_no_nl (cs : List Char) : ∀ l ∈ splitNl cs, ('\n' : Char) ∉ l := by
  induction cs with
  | nil =>
    intro l hl
    simp only [splitNl, List.mem_singleton] at hl
    subst hl
    simp
  | cons c cs ih =>
    intro l hl
    rw [splitNl_cons] at hl
    by_cases hc : c = '\n'
    · rw [if_pos hc] at hl
      rcases List.mem_cons.mp hl with h | h
      · subst h; simp
      · exact ih l h
    · rw [if_neg hc] at hl
      cases hsp : splitNl cs with
      | nil =>
        rw [hsp] at hl
        simp only [List.mem_singleton] at hl
        subst hl
        intro hm
        rcases List.mem_cons.mp hm with h | h
        · exact hc h.symm
        · simp at h
      | cons t ts =>
        rw [hsp] at hl
        rcases List.mem_cons.mp hl with h | h
        · subst h
          intro hm
          rcases List.mem_cons.mp hm with h' | h'
          · exact hc h'.symm
          · exact ih t (by rw [hsp]; exact List.mem_cons_self t ts) h'
        · exact ih l (by rw [hsp]; exact List.mem_cons_of_mem t h)

lemma splitNl_no_nl (l : List Char) (h : ('\n' : Char) ∉ l) : splitNl l = [l] := by
  induction l with
  | nil => rfl
  | cons c cs ih =>
    have hc : ¬ c = '\n' := by
      intro e
      exact h (by rw [e]; exact List.mem_cons_self _ _)
    have hcs : ('\n' : Char) ∉ cs := fun m => h (List.mem_cons_of_mem _ m)
    rw [splitNl_cons, if_neg hc, ih hcs]

lemma splitNl_append (l r : List Char) (h : ('\n' : Char) ∉ l) :
    splitNl (l ++ '\n' :: r) = l :: splitNl r := by
  induction l with
  | nil => simp [splitNl]
  | cons c cs ih =>
    have hc : ¬ c = '\n' := by
      intro e
      exact h (by rw [e]; exact List.mem_cons_self _ _)
    have hcs : ('\n' : Char) ∉ cs := fun m => h (List.mem_cons_of_mem _ m)
    rw [List.cons_append, splitNl_cons, if_neg hc, ih hcs]

lemma splitNl_joinNl (ls : List (List Char)) (hne : ls ≠ [])
    (h : ∀ l ∈ ls, ('\n' : Char) ∉ l) : splitNl (joinNl ls) = ls := by
  induction ls with
  | nil => exact absurd rfl hne
  | cons l ls ih =>
    cases ls with
    | nil =>
      rw [show joinNl [l] = l from rfl]
      exact splitNl_no_nl l (h l (List.mem_cons_self _ _))
    | cons l₂ ls₂ =>
      rw [show joinNl (l :: l₂ :: ls₂) = l ++ '\n' :: joinNl (l₂ :: ls₂) from rfl]
      rw [splitNl_append _ _ (h l (List.mem_cons_self _ _))]
      rw [ih (by simp) (fun x hx => h x (List.mem_cons_of_mem _ hx))]

/-! ### Emitted lines contain no newline -/

lemma noNl_replaceScanFuel (kw : List Char) (tp : TailPat) (rep : List Char)
    (hrep : ('\n' : Char) ∉ rep) :
    ∀ (fuel : Nat) (prevW : Bool) (cs : List Char), ('\n' : Char) ∉ cs →
      ('\n' : Char) ∉ replaceScanFuel kw tp rep fuel prevW cs := by
  intro fuel
  induction fuel with
  | zero => intro prevW cs h; exact h
  | succ fuel ih =>
    intro prevW cs h
    cases cs with
    | nil => simp [replaceScanFuel]
    | cons c cs' =>
      have hc : ¬ ('\n' : Char) = c := by
        intro e
        exact h (by rw [e]; exact List.mem_cons_self _ _)
      have hcs' : ('\n' : Char) ∉ cs' := fun m => h (List.mem_cons_of_mem _ m)
      simp only [replaceScanFuel]
      split
      · intro hm
        rcases List.mem_cons.mp hm with h1 | h1
        · exact hc h1
        · exact ih (isWordChar c) cs' hcs' h1
      · split
        · intro hm
          rcases List.mem_append.mp hm with h1 | h1
          · exact hrep h1
          · exact ih _ _ (fun m => hcs' (List.drop_subset _ _ m)) h1
        · intro hm
          rcases List.mem_cons.mp hm with h1 | h1
          · exact hc h1
          · exact ih (isWordChar c) cs' hcs' h1

lemma noNl_replTok (kw : List Char) (tp : TailPat) (rep : List Char)
    (hrep : ('\n' : Char) ∉ rep) (cs : List Char) (h : ('\n' : Char) ∉ cs) :
    ('\n' : Char) ∉ replTok kw tp rep cs :=
  noNl_replaceScanFuel kw tp rep hrep _ _ _ h

lemma noNl_applyRules (rules : List (List Char × TailPat × List Char))
    (hr : ∀ r ∈ rules, ('\n' : Char) ∉ r.2.2) :
    ∀ cs, ('\n' : Char) ∉ cs → ('\n' : Char) ∉ applyRules rules cs := by
  induction rules with
  | nil => intro cs h; exact h
  | cons r rs ih =>
    intro cs h
    have h1 : ('\n' : Char) ∉ replTok r.1 r.2.1 r.2.2 cs :=
      noNl_replTok _ _ _ (hr r (List.mem_cons_self _ _)) _ h
    have h2 := ih (fun x hx => hr x (List.mem_cons_of_mem _ hx)) _ h1
    simpa [applyRules, List.foldl_cons] using h2

lemma noNl_indentation (n : Nat) :
    ('\n' : Char) ∉ (List.replicate n "  ".data).flatten := by
  intro hm
  rcases List.mem_flatten.mp hm with ⟨l, hl, hml⟩
  rcases List.mem_replicate.mp hl with ⟨_, rfl⟩
  exact absurd hml (by decide)

lemma noNl_wordRun (cs : List Char) : ('\n' : Char) ∉ wordRun cs := by
  intro hm
  have h := List.mem_takeWhile_imp hm
  exact absurd h (by decide)

lemma noNl_lazyParams : ∀ (cs ps : List Char), lazyParams cs = some ps →
    ('\n' : Char) ∉ ps := by
  intro cs
  induction cs with
  | nil => intro ps h; exact absurd h (by simp [lazyParams])
  | cons c cs ih =>
    intro ps h
    cases cs with
    | nil => exact absurd h (by simp [lazyParams])
    | cons d rest =>
      simp only [lazyParams] at h
      by_cases h1 : c = ')' ∧ d = ':'
      · rw [if_pos h1] at h
        simp only [Option.some.injEq] at h
        subst h
        simp
      · rw [if_neg h1] at h
        by_cases h2 : c = '\n'
        · rw [if_pos h2] at h
          exact absurd h (by simp)
        · rw [if_neg h2] at h
          rcases Option.map_eq_some'.mp h with ⟨ps', hps', rfl⟩
          intro hm
          rcases List.mem_cons.mp hm with hx | hx
          · exact h2 hx.symm
          · exact ih ps' hps' hx

lemma noNl_funcAt (cs nm ps : List Char) (h : funcAt cs = some (nm, ps)) :
    ('\n' : Char) ∉ nm ∧ ('\n' : Char) ∉ ps := by
  simp only [funcAt] at h
  split at h
  · split at h
    · split at h
      · exact absurd h (by simp)
      · split at h
        · rcases Option.map_eq_some'.mp h with ⟨ps', hps', hpair⟩
          injection hpair with hnm hps
          subst hnm
          subst hps
          exact ⟨noNl_wordRun _, noNl_lazyParams _ _ hps'⟩
        · exact absurd h (by simp)
    · exact absurd h (by simp)
  · exact absurd h (by simp)

lemma noNl_funcFind : ∀ (cs nm ps : List Char), funcFind cs = some (nm, ps) →
    ('\n' : Char) ∉ nm ∧ ('\n' : Char) ∉ ps := by
  intro cs
  induction cs with
  | nil => intro nm ps h; exact absurd h (by simp [funcFind])
  | cons c cs ih =>
    intro nm ps h
    simp only [funcFind] at h
    cases hfa : funcAt (c :: cs) with
    | some r =>
      obtain ⟨nm', ps'⟩ := r
      rw [hfa] at h
      simp only [Option.some.injEq, Prod.mk.injEq] at h
      obtain ⟨rfl, rfl⟩ := h
      exact noNl_funcAt _ _ _ hfa
    | none =>
      rw [hfa] at h
      exact ih nm ps (by simpa using h)

lemma noNl_tryCapture (content cap : List Char) (h : tryCapture content = some cap) :
    ('\n' : Char) ∉ cap := by
  simp only [tryCapture] at h
  split at h
  · simp only [Option.some.injEq] at h
    subst h
    intro hm
    have hpre : ('\n' : Char) ∈ content.takeWhile (fun c => !(c == '\n')) :=
      List.take_subset _ _ hm
    have h2 := List.mem_takeWhile_imp hpre
    simp at h2
  · exact absurd h (by simp)

lemma noNl_condWsBacktrack (rest : List Char) :
    ∀ (j : Nat) (cap : List Char), condWsBacktrack rest j = some cap →
      ('\n' : Char) ∉ cap := by
  intro j
  induction j with
  | zero => intro cap h; exact absurd h (by simp [condWsBacktrack])
  | succ j ih =>
    intro cap h
    simp only [condWsBacktrack] at h
    cases htc : tryCapture (rest.drop (j + 1)) with
    | some c =>
      rw [htc] at h
      simp only [Option.some.injEq] at h
      subst h
      exact noNl_tryCapture _ _ htc
    | none =>
      rw [htc] at h
      exact ih cap (by simpa using h)

lemma noNl_condAt (cs cap : List Char) (h : condAt cs = some cap) :
    ('\n' : Char) ∉ cap := by
  unfold condAt at h
  split at h
  · exact noNl_condWsBacktrack _ _ _ h
  · exact absurd h (by simp)

lemma noNl_condFind : ∀ (cs cap : List Char), condFind cs = some cap →
    ('\n' : Char) ∉ cap := by
  intro cs
  induction cs with
  | nil => intro cap h; exact absurd h (by simp [condFind])
  | cons c cs ih =>
    intro cap h
    simp only [condFind] at h
    cases hca : condAt (c :: cs) with
    | some r =>
      rw [hca] at h
      simp only [Option.some.injEq] at h
      subst h
      exact noNl_condAt _ _ hca
    | none =>
      rw [hca] at h
      exact ih cap (by simpa using h)

lemma noNl_loopAt (cs nm : List Char) (h : loopAt cs = some nm) :
    ('\n' : Char) ∉ nm := by
  simp only [loopAt] at h
  split at h
  · split at h
    · split at h
      · exact absurd h (by simp)
      · split at h
        · simp only [Option.some.injEq] at h
          subst h
          exact noNl_wordRun _
        · exact absurd h (by simp)
    · exact absurd h (by simp)
  · exact absurd h (by simp)

lemma noNl_loopFind : ∀ (cs nm : List Char), loopFind cs = some nm →
    ('\n' : Char) ∉ nm := by
  intro cs
  induction cs with
  | nil => intro nm h; exact absurd h (by simp [loopFind])
  | cons c cs ih =>
    intro nm h
    simp only [loopFind] at h
    cases hla : loopAt (c :: cs) with
    | some r =>
      rw [hla] at h
      simp only [Option.some.injEq] at h
      subst h
      exact noNl_loopAt _ _ hla
    | none =>
      rw [hla] at h
      exact ih nm (by simpa using h)

lemma noNl_append {a b : List Char} (ha : ('\n' : Char) ∉ a)
    (hb : ('\n' : Char) ∉ b) : ('\n' : Char) ∉ a ++ b := by
  intro hm
  rcases List.mem_append.mp hm with h | h
  · exact ha h
  · exact hb h

lemma noNl_convertFunction (line ind : List Char) (hind : ('\n' : Char) ∉ ind) :
    ('\n' : Char) ∉ convertFunction line ind := by
  unfold convertFunction
  cases hf : funcFind line with
  | some r =>
    obtain ⟨nm, ps⟩ := r
    obtain ⟨hnm, hps⟩ := noNl_funcFind line nm ps hf
    exact noNl_append (noNl_append (noNl_append (noNl_append
      (noNl_append hind (by decide)) hnm) (by decide)) hps) (by decide)
  | none => exact noNl_append hind (by decide)

lemma noNl_convertLoop (line ind : List Char) (hind : ('\n' : Char) ∉ ind) :
    ('\n' : Char) ∉ convertLoop line ind := by
  unfold convertLoop extractLoop
  cases hf : loopFind line with
  | some coll =>
    have hcoll := noNl_loopFind line coll hf
    exact noNl_append (noNl_append (noNl_append (noNl_append
      (noNl_append hind (by decide)) (by decide)) (by decide)) hcoll) (by decide)
  | none => exact noNl_append hind (by decide)

lemma noNl_convertConditional (line ind : List Char) (hind : ('\n' : Char) ∉ ind) :
    ('\n' : Char) ∉ convertConditional line ind := by
  unfold convertConditional
  split
  · exact noNl_append hind (by decide)
  · cases hc : condFind line with
    | some cond =>
      have hcond := noNl_condFind line cond hc
      exact noNl_append (noNl_append (noNl_append hind (by decide)) hcond)
        (by decide)
    | none => exact noNl_append hind (by decide)

lemma noNl_convertVariable (line ind : List Char) (hind : ('\n' : Char) ∉ ind)
    (hline : ('\n' : Char) ∉ line) : ('\n' : Char) ∉ convertVariable line ind := by
  unfold convertVariable
  exact noNl_append (noNl_append (noNl_append hind (by decide))
    (noNl_applyRules varRules (by decide) line hline)) (by decide)

lemma noNl_convertExpression (line ind : List Char) (hind : ('\n' : Char) ∉ ind)
    (hline : ('\n' : Char) ∉ line) : ('\n' : Char) ∉ convertExpression line ind := by
  unfold convertExpression
  split
  · exact noNl_append hind (by decide)
  · exact noNl_append
      (noNl_append hind (noNl_applyRules exprRules (by decide) line hline))
      (by decide)

lemma noNl_emitLine (p : ParsedLine) (h : ('\n' : Char) ∉ p.cleaned) :
    ('\n' : Char) ∉ emitLine p := by
  simp only [emitLine]
  split
  · simp
  · split
    · exact noNl_convertFunction _ _ (noNl_indentation _)
    · exact noNl_convertLoop _ _ (noNl_indentation _)
    · exact noNl_convertConditional _ _ (noNl_indentation _)
    · exact noNl_convertVariable _ _ (noNl_indentation _) h
    · exact noNl_convertExpression _ _ (noNl_indentation _) h
    · simp

lemma jsTrim_subset (l : List Char) : jsTrim l ⊆ l := by
  intro a ha
  unfold jsTrim trimRight at ha
  rw [List.mem_reverse] at ha
  have h1 := (List.dropWhile_sublist (l := (l.dropWhile isWs).reverse) isWs).subset ha
  rw [List.mem_reverse] at h1
  exact (List.dropWhile_sublist (l := l) isWs).subset h1

lemma removeComment_subset (l : List Char) : removeComment l ⊆ l := by
  unfold removeComment
  split
  · exact List.take_subset _ _
  · exact fun a ha => ha

lemma cleaned_subset (line : List Char) : (parseLine line).cleaned ⊆ line := by
  by_cases he : isEmpty line = true
  · have h : (parseLine line).cleaned = [] := by simp [parseLine, he]
    rw [h]
    exact List.nil_subset _
  · rw [parseLine_cleaned_of_not_empty line he]
    exact fun a ha => removeComment_subset line (jsTrim_subset _ ha)

/-- C4: the pipeline is line-count preserving — for every input string, the
translated output has exactly as many physical lines as the input (blank
input lines are emitted as blank output lines). -/
theorem spec_c4 (code : String) :
    (splitNl (epsteinPipeline code).data).length = (splitNl code.data).length := by
  show (splitNl (epsteinRun code.data)).length = _
  unfold epsteinRun toJavaScript
  rw [splitNl_joinNl]
  · simp [toJavaScriptLines, parse]
  · intro hnil
    simp only [toJavaScriptLines, parse, List.map_eq_nil_iff] at hnil
    exact splitNl_ne_nil code.data hnil
  · intro l hl
    simp only [toJavaScriptLines, List.mem_map] at hl
    rcases hl with ⟨p, hp, rfl⟩
    simp only [parse, List.mem_map] at hp
    rcases hp with ⟨ln, hln, rfl⟩
    apply noNl_emitLine
    intro hm
    exact mem_splitNl_no_nl code.data ln hln (cleaned_subset ln hm)

end Epstein
